import Mathlib

/-!
Shallow embedding of the `lox-rs` scanner (`src/scanner.rs`) together with
proofs about the claims of the specification.  The scanner walks a character
vector with `start`/`current` cursors, emits tokens, and reports diagnostics
through `utils::error`.  Rust panics (out-of-bounds indexing in `advance`)
are modelled by `Option`: a `none` result of a scanning function means the
Rust program panicked at that point.
-/

/-- Modelled from the spec: the `crate::token` module is not under `src/`.
Token kinds follow §3 and the glossary: punctuation, one/two-character
operators, literal kinds, the reserved keywords named in `scanner.rs`, and
the terminal EOF marker. -/
inductive TokenType where
  | LeftParen | RightParen | LeftBrace | RightBrace
  | Comma | Dot | Minus | Plus | Semicolon | Slash | Star
  | Bang | BangEqual | Equal | EqualEqual
  | Greater | GreaterEqual | Less | LessEqual
  | Identifier | String | Number
  | And | Class | Else | False | Fun | For | If | Nil | Or
  | Print | Return | Super | This | True | Var | While
  | EOF
  deriving DecidableEq, Repr

/-- Modelled from the spec: the decoded literal payload of a token
(`Literal::String`, `Literal::Number`, `Literal::Identifier` in the missing
`crate::token`).  The Rust `f64` payload of a number is modelled as an exact
rational, which agrees with `f64` on every value the claims mention. -/
inductive Literal where
  | str (s : String)
  | num (v : ℚ)
  | ident (s : String)
  deriving DecidableEq, Repr

/-- Modelled from the spec (§3): a token is kind, verbatim lexeme, optional
decoded literal, and 1-based line number. -/
structure Token where
  kind : TokenType
  lexeme : String
  literal : Option Literal
  line : Nat
  deriving DecidableEq, Repr

/-- The static `KEYWORDS` table of `scanner.rs` (lines 8-31).  The Rust
`HashMap` is modelled as an association list with the same (distinct) keys,
looked up with exact string equality, including the `"Fun"` entry spelled
with a capital F exactly as in the source. -/
def KEYWORDS : List (String × TokenType) :=
  [("and", .And), ("class", .Class), ("else", .Else), ("false", .False),
   ("for", .For), ("Fun", .Fun), ("if", .If), ("nil", .Nil), ("or", .Or),
   ("print", .Print), ("return", .Return), ("super", .Super), ("this", .This),
   ("true", .True), ("var", .Var), ("while", .While)]

/-- Scanner state (`struct Scanner`): character vector, emitted tokens,
cursors and line counter.  The extra `errors` field records the diagnostics
the Rust code sends to the error stream via `utils::error(line, message)`. -/
structure Scanner where
  chars : List Char
  tokens : List Token
  errors : List (Nat × String)
  start : Nat
  current : Nat
  line : Nat
  deriving DecidableEq, Repr

/-- `Scanner::new`. -/
def Scanner.new (source : String) : Scanner :=
  ⟨source.data, [], [], 0, 0, 1⟩

/-- `Scanner::is_at_end`. -/
def Scanner.isAtEnd (s : Scanner) : Bool :=
  s.current ≥ s.chars.length

/-- `Scanner::advance`: reads `chars[current]` and increments `current`.
Rust indexing panics when `current` is out of bounds; the panic is the
`none` result. -/
def Scanner.advance (s : Scanner) : Option (Char × Scanner) :=
  match s.chars[s.current]? with
  | none => none
  | some ch => some (ch, { s with current := s.current + 1 })

/-- `substr(chars, start, end)`: the characters of `chars[start..end]`
collected into a string (all call sites have `start ≤ end ≤ chars.len()`). -/
def substr (chars : List Char) (start stop : Nat) : String :=
  String.mk ((chars.drop start).take (stop - start))

/-- `Scanner::add_token`: pushes a token with the current lexeme and no
literal. -/
def Scanner.addToken (s : Scanner) (kind : TokenType) : Scanner :=
  { s with tokens := s.tokens ++ [⟨kind, substr s.chars s.start s.current, none, s.line⟩] }

/-- `Scanner::add_literal`: pushes a token with the current lexeme and the
given literal. -/
def Scanner.addLiteral (s : Scanner) (kind : TokenType) (lit : Option Literal) : Scanner :=
  { s with tokens := s.tokens ++ [⟨kind, substr s.chars s.start s.current, lit, s.line⟩] }

/-- `Scanner::next_if_eq`: consume the next character only when it equals
`expected`; returns whether it was consumed together with the new state. -/
def Scanner.nextIfEq (s : Scanner) (expected : Char) : Bool × Scanner :=
  match s.chars[s.current]? with
  | none => (false, s)
  | some c => if c = expected then (true, { s with current := s.current + 1 }) else (false, s)

/-- `Scanner::peek`. -/
def Scanner.peek (s : Scanner) : Option Char :=
  s.chars[s.current]?

/-- `Scanner::peek_next` (lines 181-188), including its actual bound check
`idx + 1 >= self.chars.len()` for `idx = current + 1`. -/
def Scanner.peekNext (s : Scanner) : Option Char :=
  if s.current + 1 + 1 ≥ s.chars.length then none else s.chars[s.current + 1]?

theorem peek_lt {s : Scanner} {c : Char} (h : s.peek = some c) :
    s.current < s.chars.length := by
  by_contra hge
  push_neg at hge
  rw [Scanner.peek, List.getElem?_eq_none hge] at h
  exact Option.noConfusion h

/-- The body of the `'/'` comment branch of `scan_token` (lines 113-115):
`while self.peek() != Some('\n') { self.advance(); }`.  When the source is
exhausted before a newline, `peek` is `None`, the loop condition still
holds, and `advance` panics (`none`). -/
def Scanner.commentLoop (s : Scanner) : Option Scanner :=
  match h : s.peek with
  | none => none
  | some c =>
    if c = '\n' then some s
    else Scanner.commentLoop { s with current := s.current + 1 }
termination_by s.chars.length - s.current
decreasing_by
  have hpl := peek_lt h
  omega

/-- The scanning loop of `Scanner::string` (lines 191-199): consume until a
`'"'` or end of input, counting newlines. -/
def Scanner.stringLoop (s : Scanner) : Scanner :=
  match h : s.peek with
  | none => s
  | some ch =>
    if ch = '"' then s
    else if ch = '\n' then
      Scanner.stringLoop { s with current := s.current + 1, line := s.line + 1 }
    else
      Scanner.stringLoop { s with current := s.current + 1 }
termination_by s.chars.length - s.current
decreasing_by
  · have hpl := peek_lt h
    omega
  · have hpl := peek_lt h
    omega

/-- The digit-run loop of `Scanner::number` (lines 214-216 and 221-223). -/
def Scanner.digitLoop (s : Scanner) : Scanner :=
  match h : s.peek with
  | none => s
  | some c =>
    if c.isDigit then Scanner.digitLoop { s with current := s.current + 1 } else s
termination_by s.chars.length - s.current
decreasing_by
  have hpl := peek_lt h
  omega

/-- The alphanumeric run loop of `Scanner::identifier` (lines 234-236).
Rust `char::is_alphanumeric` is Unicode-alphanumeric; it is modelled by its
ASCII fragment `Char.isAlphanum`, which agrees with the source on every
input the claims quantify over. -/
def Scanner.identLoop (s : Scanner) : Scanner :=
  match h : s.peek with
  | none => s
  | some c =>
    if c.isAlphanum then Scanner.identLoop { s with current := s.current + 1 } else s
termination_by s.chars.length - s.current
decreasing_by
  have hpl := peek_lt h
  omega

theorem digitLoop_peek_none {s : Scanner} (h : s.peek = none) : s.digitLoop = s := by
  rw [Scanner.digitLoop.eq_def]
  split
  · rfl
  · rename_i c hc
    rw [h] at hc
    exact Option.noConfusion hc

theorem digitLoop_peek_some {s : Scanner} {c : Char} (h : s.peek = some c) :
    s.digitLoop = if c.isDigit then Scanner.digitLoop { s with current := s.current + 1 } else s := by
  rw [Scanner.digitLoop.eq_def]
  split
  · rename_i hc
    rw [h] at hc
    exact Option.noConfusion hc
  · rename_i c' hc
    rw [h] at hc
    cases hc
    rfl

theorem identLoop_peek_none {s : Scanner} (h : s.peek = none) : s.identLoop = s := by
  rw [Scanner.identLoop.eq_def]
  split
  · rfl
  · rename_i c hc
    rw [h] at hc
    exact Option.noConfusion hc

theorem identLoop_peek_some {s : Scanner} {c : Char} (h : s.peek = some c) :
    s.identLoop = if c.isAlphanum then Scanner.identLoop { s with current := s.current + 1 } else s := by
  rw [Scanner.identLoop.eq_def]
  split
  · rename_i hc
    rw [h] at hc
    exact Option.noConfusion hc
  · rename_i c' hc
    rw [h] at hc
    cases hc
    rfl

theorem stringLoop_peek_none {s : Scanner} (h : s.peek = none) : s.stringLoop = s := by
  rw [Scanner.stringLoop.eq_def]
  split
  · rfl
  · rename_i c hc
    rw [h] at hc
    exact Option.noConfusion hc

theorem stringLoop_peek_some {s : Scanner} {c : Char} (h : s.peek = some c) :
    s.stringLoop =
      if c = '"' then s
      else if c = '\n' then
        Scanner.stringLoop { s with current := s.current + 1, line := s.line + 1 }
      else Scanner.stringLoop { s with current := s.current + 1 } := by
  rw [Scanner.stringLoop.eq_def]
  split
  · rename_i hc
    rw [h] at hc
    exact Option.noConfusion hc
  · rename_i c' hc
    rw [h] at hc
    cases hc
    rfl

theorem commentLoop_peek_none {s : Scanner} (h : s.peek = none) : s.commentLoop = none := by
  rw [Scanner.commentLoop.eq_def]
  split
  · rfl
  · rename_i c hc
    rw [h] at hc
    exact Option.noConfusion hc

theorem commentLoop_peek_some {s : Scanner} {c : Char} (h : s.peek = some c) :
    s.commentLoop =
      if c = '\n' then some s
      else Scanner.commentLoop { s with current := s.current + 1 } := by
  rw [Scanner.commentLoop.eq_def]
  split
  · rename_i hc
    rw [h] at hc
    exact Option.noConfusion hc
  · rename_i c' hc
    rw [h] at hc
    cases hc
    rfl

theorem peek_of_drop {s : Scanner} {l : List Char} (hd : s.chars.drop s.current = l) :
    s.peek = l.head? := by
  rw [Scanner.peek, ← List.head?_drop, hd]

theorem drop_succ_of_drop {s : Scanner} {c : Char} {l : List Char}
    (hd : s.chars.drop s.current = c :: l) :
    s.chars.drop (s.current + 1) = l := by
  have h1 := congrArg (List.drop 1) hd
  rw [List.drop_drop] at h1
  simpa [Nat.add_comm] using h1

theorem digitLoop_eq_aux : ∀ (l : List Char) (s : Scanner), s.chars.drop s.current = l →
    s.digitLoop = { s with current := s.current + (l.takeWhile Char.isDigit).length } := by
  intro l
  induction l with
  | nil =>
    intro s hd
    rw [digitLoop_peek_none (by rw [peek_of_drop hd]; rfl)]
    simp
  | cons c l ih =>
    intro s hd
    rw [digitLoop_peek_some (by rw [peek_of_drop hd]; rfl)]
    by_cases hc : c.isDigit
    · rw [if_pos hc, ih { s with current := s.current + 1 } (drop_succ_of_drop hd)]
      have harith : s.current + 1 + (l.takeWhile Char.isDigit).length =
          s.current + ((c :: l).takeWhile Char.isDigit).length := by
        rw [List.takeWhile_cons, if_pos hc, List.length_cons]
        omega
      rw [harith]
    · rw [if_neg hc, List.takeWhile_cons, if_neg hc]
      simp

theorem digitLoop_eq (s : Scanner) :
    s.digitLoop =
      { s with current := s.current + ((s.chars.drop s.current).takeWhile Char.isDigit).length } :=
  digitLoop_eq_aux _ s rfl

theorem identLoop_eq_aux : ∀ (l : List Char) (s : Scanner), s.chars.drop s.current = l →
    s.identLoop = { s with current := s.current + (l.takeWhile Char.isAlphanum).length } := by
  intro l
  induction l with
  | nil =>
    intro s hd
    rw [identLoop_peek_none (by rw [peek_of_drop hd]; rfl)]
    simp
  | cons c l ih =>
    intro s hd
    rw [identLoop_peek_some (by rw [peek_of_drop hd]; rfl)]
    by_cases hc : c.isAlphanum
    · rw [if_pos hc, ih { s with current := s.current + 1 } (drop_succ_of_drop hd)]
      have harith : s.current + 1 + (l.takeWhile Char.isAlphanum).length =
          s.current + ((c :: l).takeWhile Char.isAlphanum).length := by
        rw [List.takeWhile_cons, if_pos hc, List.length_cons]
        omega
      rw [harith]
    · rw [if_neg hc, List.takeWhile_cons, if_neg hc]
      simp

theorem identLoop_eq (s : Scanner) :
    s.identLoop =
      { s with current := s.current + ((s.chars.drop s.current).takeWhile Char.isAlphanum).length } :=
  identLoop_eq_aux _ s rfl

theorem stringLoop_eq_aux : ∀ (l : List Char) (s : Scanner), s.chars.drop s.current = l →
    s.stringLoop = { s with current := s.current + (l.takeWhile (· != '"')).length,
                            line := s.line + (l.takeWhile (· != '"')).count '\n' } := by
  intro l
  induction l with
  | nil =>
    intro s hd
    rw [stringLoop_peek_none (by rw [peek_of_drop hd]; rfl)]
    simp
  | cons c l ih =>
    intro s hd
    rw [stringLoop_peek_some (by rw [peek_of_drop hd]; rfl)]
    by_cases hq : c = '"'
    · rw [if_pos hq]
      subst hq
      rw [List.takeWhile_cons]
      simp
    · rw [if_neg hq]
      have hne : (c != '"') = true := by simp [hq]
      by_cases hnl : c = '\n'
      · rw [if_pos hnl]
        rw [ih _ (drop_succ_of_drop hd)]
        subst hnl
        have hcur : s.current + 1 + (l.takeWhile (· != '"')).length =
            s.current + (('\n' :: l).takeWhile (· != '"')).length := by
          rw [List.takeWhile_cons, if_pos hne, List.length_cons]
          omega
        have hline : s.line + 1 + (l.takeWhile (· != '"')).count '\n' =
            s.line + (('\n' :: l).takeWhile (· != '"')).count '\n' := by
          rw [List.takeWhile_cons, if_pos hne, List.count_cons]
          simp
          omega
        rw [hcur, hline]
      · rw [if_neg hnl]
        rw [ih _ (drop_succ_of_drop hd)]
        have hcur : s.current + 1 + (l.takeWhile (· != '"')).length =
            s.current + ((c :: l).takeWhile (· != '"')).length := by
          rw [List.takeWhile_cons, if_pos hne, List.length_cons]
          omega
        have hline : s.line + (l.takeWhile (· != '"')).count '\n' =
            s.line + ((c :: l).takeWhile (· != '"')).count '\n' := by
          rw [List.takeWhile_cons, if_pos hne, List.count_cons]
          have hbeq : (c == '\n') = false := by simp [hnl]
          rw [hbeq]
          simp
        rw [hcur, hline]

theorem stringLoop_eq (s : Scanner) :
    s.stringLoop =
      { s with current := s.current + ((s.chars.drop s.current).takeWhile (· != '"')).length,
               line := s.line + ((s.chars.drop s.current).takeWhile (· != '"')).count '\n' } :=
  stringLoop_eq_aux _ s rfl

theorem commentLoop_eq_aux : ∀ (l : List Char) (s : Scanner), s.chars.drop s.current = l →
    s.commentLoop =
      if '\n' ∈ l then some { s with current := s.current + (l.takeWhile (· != '\n')).length }
      else none := by
  intro l
  induction l with
  | nil =>
    intro s hd
    rw [commentLoop_peek_none (by rw [peek_of_drop hd]; rfl)]
    simp
  | cons c l ih =>
    intro s hd
    rw [commentLoop_peek_some (by rw [peek_of_drop hd]; rfl)]
    by_cases hnl : c = '\n'
    · rw [if_pos hnl]
      subst hnl
      rw [if_pos (List.mem_cons_self _ _), List.takeWhile_cons]
      simp
    · rw [if_neg hnl, ih _ (drop_succ_of_drop hd)]
      have hne : (c != '\n') = true := by simp [hnl]
      by_cases hm : '\n' ∈ l
      · rw [if_pos hm, if_pos (List.mem_cons_of_mem _ hm)]
        have hcur : s.current + 1 + (l.takeWhile (· != '\n')).length =
            s.current + ((c :: l).takeWhile (· != '\n')).length := by
          rw [List.takeWhile_cons, if_pos hne, List.length_cons]
          omega
        rw [hcur]
      · rw [if_neg hm, if_neg (by
          intro hcontra
          rcases List.mem_cons.mp hcontra with h1 | h1
          · exact hnl h1.symm
          · exact hm h1)]

theorem commentLoop_eq (s : Scanner) :
    s.commentLoop =
      if '\n' ∈ s.chars.drop s.current then
        some { s with current :=
          s.current + ((s.chars.drop s.current).takeWhile (· != '\n')).length }
      else none :=
  commentLoop_eq_aux _ s rfl

/-- `Scanner::string` (lines 190-211): run the consuming loop; at end of
input report the "Unterminated string." diagnostic and emit nothing,
otherwise consume the closing quote and emit a `String` token whose literal
is the text strictly between the quotes. -/
def Scanner.string (s0 : Scanner) : Scanner :=
  let s := s0.stringLoop
  if s.isAtEnd then { s with errors := s.errors ++ [(s.line, "Unterminated string.")] }
  else
    let s1 := { s with current := s.current + 1 }
    s1.addLiteral .String (some (.str (substr s1.chars (s1.start + 1) (s1.current - 1))))

/-- Value of a digit string read in base 10. -/
def digitsVal (l : List Char) : Nat :=
  l.foldl (fun acc c => acc * 10 + (c.toNat - '0'.toNat)) 0

/-- Model of Rust `str::parse::<f64>` on the numerals this scanner can
match: it succeeds exactly on `digits` and `digits.digits` shapes and
returns the exact decimal value (as a rational, standing in for the `f64`);
on any other text it is `none` (`Err`).  Rust's parser accepts every string
of these two shapes, so the model agrees with the source on all lexemes
`Scanner::number` produces. -/
def parseNumber (l : List Char) : Option ℚ :=
  let intPart := l.takeWhile Char.isDigit
  let rest := l.dropWhile Char.isDigit
  if intPart.isEmpty then none
  else
    match rest with
    | [] => some (digitsVal intPart : ℚ)
    | '.' :: frac =>
      if frac.isEmpty then none
      else if frac.all Char.isDigit then
        some ((digitsVal intPart : ℚ) + (digitsVal frac : ℚ) / (10 : ℚ) ^ frac.length)
      else none
    | _ => none

/-- `Scanner::number` (lines 213-231): a maximal digit run, a fractional
part only when `peek` is `'.'` and `peek_next` is a digit, then
`parse::<f64>().unwrap_or_default()` — a failed parse would be masked as
the default value `0`. -/
def Scanner.number (s0 : Scanner) : Scanner :=
  let s := s0.digitLoop
  let s2 :=
    if s.peek = some '.' ∧ (s.peekNext.map Char.isDigit).getD false then
      Scanner.digitLoop { s with current := s.current + 1 }
    else s
  let value : ℚ := (parseNumber (substr s2.chars s2.start s2.current).data).getD 0
  s2.addLiteral .Number (some (.num value))

/-- `Scanner::identifier` (lines 233-245): a maximal alphanumeric run, then
an exact lookup in `KEYWORDS`; a hit emits the keyword kind with no
literal, a miss emits an `Identifier` token carrying the text. -/
def Scanner.identifier (s0 : Scanner) : Scanner :=
  let s := s0.identLoop
  let text := substr s.chars s.start s.current
  match KEYWORDS.lookup text with
  | some k => s.addToken k
  | none => s.addLiteral .Identifier (some (.ident text))

/-- Rust `char::is_alphabetic` (Unicode), modelled by its ASCII fragment,
which agrees with the source on every input the claims mention. -/
def isAlphabetic (c : Char) : Bool := c.isAlpha

/-- The character dispatch of `Scanner::scan_token` (lines 71-134), taking
the character returned by `advance` and the state after it.  The dispatch
reproduces the source's actual kind choices: `'\x7b'` (left brace) is routed to
`LeftParen`, `','` to `Dot`, `'.'` to `Comma` and `'*'` to `Plus`, exactly
as written in lines 74, 76, 77 and 81. -/
def Scanner.scanDispatch (c : Char) (s : Scanner) : Option Scanner :=
  match c with
  | '(' => some (s.addToken .LeftParen)
  | ')' => some (s.addToken .RightParen)
  | '\x7b' => some (s.addToken .LeftParen)
  | '\x7d' => some (s.addToken .RightBrace)
  | ',' => some (s.addToken .Dot)
  | '.' => some (s.addToken .Comma)
  | '-' => some (s.addToken .Minus)
  | '+' => some (s.addToken .Plus)
  | ';' => some (s.addToken .Semicolon)
  | '*' => some (s.addToken .Plus)
  | '!' =>
    let r := s.nextIfEq '='
    some (r.2.addToken (if r.1 then .BangEqual else .Bang))
  | '=' =>
    let r := s.nextIfEq '='
    some (r.2.addToken (if r.1 then .EqualEqual else .Equal))
  | '<' =>
    let r := s.nextIfEq '='
    some (r.2.addToken (if r.1 then .LessEqual else .Less))
  | '>' =>
    let r := s.nextIfEq '='
    some (r.2.addToken (if r.1 then .GreaterEqual else .Greater))
  | '/' =>
    let r := s.nextIfEq '/'
    if r.1 then r.2.commentLoop else some (r.2.addToken .Slash)
  | ' ' | '\r' | '\t' => some s
  | '\n' => some { s with line := s.line + 1 }
  | '"' => some s.string
  | c =>
    if c.isDigit then some s.number
    else if isAlphabetic c then some s.identifier
    else some { s with errors := s.errors ++ [(s.line, "Unexpected characters.")] }

/-- `Scanner::scan_token` (lines 70-135): `advance` (whose out-of-bounds
panic is `none`), then the dispatch above on the consumed character. -/
def Scanner.scanToken (s0 : Scanner) : Option Scanner :=
  match s0.advance with
  | none => none
  | some (c, s) => Scanner.scanDispatch c s

theorem addToken_chars (s : Scanner) (k : TokenType) : (s.addToken k).chars = s.chars := rfl

theorem addToken_current (s : Scanner) (k : TokenType) : (s.addToken k).current = s.current := rfl

theorem addLiteral_chars (s : Scanner) (k : TokenType) (v : Option Literal) :
    (s.addLiteral k v).chars = s.chars := rfl

theorem addLiteral_current (s : Scanner) (k : TokenType) (v : Option Literal) :
    (s.addLiteral k v).current = s.current := rfl

theorem advance_some {s s1 : Scanner} {c : Char} (h : s.advance = some (c, s1)) :
    s.chars[s.current]? = some c ∧ s1 = { s with current := s.current + 1 } := by
  unfold Scanner.advance at h
  cases hg : s.chars[s.current]? with
  | none => rw [hg] at h; exact Option.noConfusion h
  | some d =>
    rw [hg] at h
    simp only [Option.some.injEq, Prod.mk.injEq] at h
    obtain ⟨h1, h2⟩ := h
    subst h1
    exact ⟨rfl, h2.symm⟩

theorem nextIfEq_spec (s : Scanner) (c : Char) :
    ((s.nextIfEq c).1 = true ∧ (s.nextIfEq c).2 = { s with current := s.current + 1 } ∧
      s.chars[s.current]? = some c) ∨
    ((s.nextIfEq c).1 = false ∧ (s.nextIfEq c).2 = s ∧ s.chars[s.current]? ≠ some c) := by
  unfold Scanner.nextIfEq
  cases hg : s.chars[s.current]? with
  | none => right; simp
  | some d =>
    by_cases hd : d = c
    · left; subst hd; simp
    · right; simp [hd]

theorem string_mono (s : Scanner) :
    (Scanner.string s).chars = s.chars ∧ s.current ≤ (Scanner.string s).current := by
  unfold Scanner.string
  rw [stringLoop_eq]
  dsimp only
  split_ifs with h
  · exact ⟨rfl, by dsimp only; omega⟩
  · refine ⟨rfl, ?_⟩
    dsimp only [addLiteral_current]
    omega

theorem number_mono (s : Scanner) :
    (Scanner.number s).chars = s.chars ∧ s.current ≤ (Scanner.number s).current := by
  unfold Scanner.number
  rw [digitLoop_eq]
  dsimp only
  split_ifs with h
  · rw [digitLoop_eq]
    refine ⟨rfl, ?_⟩
    dsimp only [addLiteral_current]
    omega
  · refine ⟨rfl, ?_⟩
    dsimp only [addLiteral_current]
    omega

theorem identifier_mono (s : Scanner) :
    (Scanner.identifier s).chars = s.chars ∧ s.current ≤ (Scanner.identifier s).current := by
  unfold Scanner.identifier
  rw [identLoop_eq]
  dsimp only
  split
  · exact ⟨rfl, by dsimp only [addToken_current]; omega⟩
  · exact ⟨rfl, by dsimp only [addLiteral_current]; omega⟩

theorem scanToken_eq_none {s : Scanner} (ha : s.advance = none) : s.scanToken = none := by
  unfold Scanner.scanToken
  rw [ha]

theorem scanToken_eq_dispatch {s s1 : Scanner} {c : Char} (ha : s.advance = some (c, s1)) :
    s.scanToken = Scanner.scanDispatch c s1 := by
  unfold Scanner.scanToken
  rw [ha]

theorem scanToken_mono {s s' : Scanner} (h : s.scanToken = some s') :
    s'.chars = s.chars ∧ s.current < s'.current := by
  cases ha : s.advance with
  | none => rw [scanToken_eq_none ha] at h; exact Option.noConfusion h
  | some p =>
    obtain ⟨c, s1⟩ := p
    rw [scanToken_eq_dispatch ha] at h
    obtain ⟨hg, hs1⟩ := advance_some ha
    have htc : s1.chars = s.chars := by rw [hs1]
    have htcur : s1.current = s.current + 1 := by rw [hs1]
    clear hs1 hg ha
    unfold Scanner.scanDispatch at h
    split at h <;>
      first
      | (injection h with h
         subst h
         refine ⟨?_, ?_⟩
         · first
           | exact htc
           | exact (addToken_chars _ _).trans htc
           | exact (addLiteral_chars _ _ _).trans htc
           | exact (string_mono s1).1.trans htc
         · first
           | (rw [addToken_current]; first | (dsimp only; omega) | omega)
           | (rw [addLiteral_current]; first | (dsimp only; omega) | omega)
           | (have hsm := (string_mono s1).2; omega)
           | (dsimp only; omega)
           | omega)
      | (injection h with h
         subst h
         rcases nextIfEq_spec s1 '=' with ⟨hb, hsnd, hch⟩ | ⟨hb, hsnd, hch⟩ <;>
           rw [hsnd] <;>
           exact ⟨(addToken_chars _ _).trans htc,
             by rw [addToken_current]; first | (dsimp only; omega) | omega⟩)
      | (dsimp only at h
         rcases nextIfEq_spec s1 '/' with ⟨hb, hsnd, hch⟩ | ⟨hb, hsnd, hch⟩
         · rw [hb, hsnd, if_pos rfl, commentLoop_eq] at h
           split at h
           · injection h with h
             subst h
             refine ⟨htc, ?_⟩
             dsimp only
             omega
           · exact Option.noConfusion h
         · rw [hb, hsnd, if_neg (by simp)] at h
           injection h with h
           subst h
           exact ⟨(addToken_chars _ _).trans htc,
             by rw [addToken_current]; omega⟩)
      | (split_ifs at h <;>
           injection h with h <;>
           subst h <;>
           first
           | (refine ⟨(number_mono s1).1.trans htc, ?_⟩
              have hnm := (number_mono s1).2
              omega)
           | (refine ⟨(identifier_mono s1).1.trans htc, ?_⟩
              have him := (identifier_mono s1).2
              omega)
           | (refine ⟨htc, ?_⟩
              first | (dsimp only; omega) | omega))

/-- The loop of `Scanner::scan_tokens` (lines 54-58): while not at end, set
`start := current` and scan one token.  `none` propagates a panic. -/
def Scanner.scanLoop (s : Scanner) : Option Scanner :=
  if h : s.current < s.chars.length then
    match hstep : Scanner.scanToken { s with start := s.current } with
    | none => none
    | some s' => Scanner.scanLoop s'
  else some s
termination_by s.chars.length - s.current
decreasing_by
  obtain ⟨hc, hcur⟩ := scanToken_mono hstep
  dsimp only at hc hcur
  rw [hc]
  omega

/-- `Scanner::scan_tokens` (lines 53-64): run the loop, then append exactly
one EOF token with empty lexeme, no literal and the final `line` value. -/
def Scanner.scanTokens (s : Scanner) : Option Scanner :=
  match s.scanLoop with
  | none => none
  | some s' => some { s' with tokens := s'.tokens ++ [⟨.EOF, "", none, s'.line⟩] }

/-- The token sequence a scan of `source` returns (`none` when it panics). -/
def scan (source : String) : Option (List Token) :=
  ((Scanner.new source).scanTokens).map Scanner.tokens

/-- The diagnostics a scan of `source` reports on the error stream. -/
def scanErrors (source : String) : Option (List (Nat × String)) :=
  ((Scanner.new source).scanTokens).map Scanner.errors

theorem scanLoop_done {s : Scanner} (h : ¬ s.current < s.chars.length) :
    s.scanLoop = some s := by
  rw [Scanner.scanLoop.eq_def, dif_neg h]

theorem scanLoop_step {s : Scanner} (h : s.current < s.chars.length) :
    s.scanLoop = (Scanner.scanToken { s with start := s.current }).bind Scanner.scanLoop := by
  rw [Scanner.scanLoop.eq_def, dif_pos h]
  split
  · rename_i heq
    rw [heq]
    rfl
  · rename_i s' heq
    rw [heq]
    rfl

theorem takeWhile_append_cons {α : Type} (p : α → Bool) (l₁ : List α) (b : α) (l₂ : List α)
    (h1 : ∀ x ∈ l₁, p x) (hb : p b = false) :
    (l₁ ++ b :: l₂).takeWhile p = l₁ ∧ (l₁ ++ b :: l₂).dropWhile p = b :: l₂ := by
  induction l₁ with
  | nil => simp [List.takeWhile_cons, List.dropWhile_cons, hb]
  | cons a l ih =>
    have ha : p a = true := h1 a (List.mem_cons_self _ _)
    have ih' := ih fun x hx => h1 x (List.mem_cons_of_mem _ hx)
    simp [List.takeWhile_cons, List.dropWhile_cons, ha, ih'.1, ih'.2]

theorem dropWhile_eq_drop_len {α : Type} (p : α → Bool) (l : List α) :
    l.dropWhile p = l.drop (l.takeWhile p).length := by
  have h := List.drop_left (l.takeWhile p) (l.dropWhile p)
  rw [List.takeWhile_append_dropWhile] at h
  exact h.symm

theorem lookup_mem_snd {α β : Type} [BEq α] {l : List (α × β)} {a : α} {b : β}
    (h : l.lookup a = some b) : b ∈ l.map Prod.snd := by
  induction l with
  | nil => simp [List.lookup] at h
  | cons p l ih =>
    rw [List.lookup] at h
    split at h
    · cases h; exact List.mem_cons_self _ _
    · exact List.mem_cons_of_mem _ (ih h)

theorem parseNumber_all_digits (l : List Char) (hne : l ≠ [])
    (h : ∀ c ∈ l, c.isDigit = true) : parseNumber l = some ((digitsVal l : ℚ)) := by
  have hemp : l.isEmpty = false := by simp [List.isEmpty_eq_false, hne]
  unfold parseNumber
  rw [List.takeWhile_eq_self_iff.mpr h, List.dropWhile_eq_nil_iff.mpr h]
  simp [hemp]

theorem parseNumber_digits_frac (d f : List Char) (hdne : d ≠ []) (hfne : f ≠ [])
    (hd : ∀ c ∈ d, c.isDigit = true) (hf : ∀ c ∈ f, c.isDigit = true) :
    parseNumber (d ++ '.' :: f) =
      some ((digitsVal d : ℚ) + (digitsVal f : ℚ) / (10 : ℚ) ^ f.length) := by
  have hemp : d.isEmpty = false := by simp [List.isEmpty_eq_false, hdne]
  have hfemp : f.isEmpty = false := by simp [List.isEmpty_eq_false, hfne]
  obtain ⟨h1, h2⟩ := takeWhile_append_cons Char.isDigit d '.' f hd (by decide)
  unfold parseNumber
  rw [h1, h2]
  simp [hemp, hfemp, List.all_eq_true.mpr hf]

theorem addToken_tokens (s : Scanner) (k : TokenType) :
    (s.addToken k).tokens =
      s.tokens ++ [⟨k, substr s.chars s.start s.current, none, s.line⟩] := rfl

theorem addLiteral_tokens (s : Scanner) (k : TokenType) (v : Option Literal) :
    (s.addLiteral k v).tokens =
      s.tokens ++ [⟨k, substr s.chars s.start s.current, v, s.line⟩] := rfl

theorem number_tokens (s1 : Scanner) (c : Char) (hg : s1.chars[s1.start]? = some c)
    (hc : c.isDigit = true) (hcur : s1.current = s1.start + 1) :
    ∃ t, (Scanner.number s1).tokens = s1.tokens ++ [t] ∧ t.kind = TokenType.Number ∧
      ∃ v, parseNumber t.lexeme.data = some v ∧ t.literal = some (Literal.num v) := by
  obtain ⟨hlt, hgel⟩ := List.getElem?_eq_some.mp hg
  have hdropc : s1.chars.drop s1.start = c :: s1.chars.drop (s1.start + 1) := by
    rw [List.drop_eq_getElem_cons hlt, hgel]
  have hdec1 := (List.takeWhile_append_dropWhile Char.isDigit (s1.chars.drop (s1.start + 1))).symm
  rw [dropWhile_eq_drop_len, List.drop_drop] at hdec1
  have hD1 : ∀ x ∈ (s1.chars.drop (s1.start + 1)).takeWhile Char.isDigit, x.isDigit = true :=
    fun x hx => List.mem_takeWhile_imp hx
  unfold Scanner.number
  rw [digitLoop_eq, hcur]
  dsimp only
  split_ifs with hfrac
  · obtain ⟨hdot0, hnext0⟩ := hfrac
    rw [Scanner.peek] at hdot0
    dsimp only at hdot0
    obtain ⟨hlt2, hgel2⟩ := List.getElem?_eq_some.mp hdot0
    have hdot : s1.chars.drop
          (s1.start + 1 + ((s1.chars.drop (s1.start + 1)).takeWhile Char.isDigit).length) =
        '.' :: s1.chars.drop
          (s1.start + 1 + ((s1.chars.drop (s1.start + 1)).takeWhile Char.isDigit).length + 1) := by
      rw [List.drop_eq_getElem_cons hlt2, hgel2]
    rw [Scanner.peekNext] at hnext0
    dsimp only at hnext0
    split_ifs at hnext0 with hbound
    · exact absurd hnext0 (by decide)
    · cases hge2 : s1.chars[s1.start + 1 +
          ((s1.chars.drop (s1.start + 1)).takeWhile Char.isDigit).length + 1]? with
      | none => rw [hge2] at hnext0; simp at hnext0
      | some e =>
        rw [hge2] at hnext0
        simp only [Option.map_some', Option.getD_some] at hnext0
        obtain ⟨hlt3, hgel3⟩ := List.getElem?_eq_some.mp hge2
        have hdrop3 : s1.chars.drop (s1.start + 1 +
              ((s1.chars.drop (s1.start + 1)).takeWhile Char.isDigit).length + 1) =
            e :: s1.chars.drop (s1.start + 1 +
              ((s1.chars.drop (s1.start + 1)).takeWhile Char.isDigit).length + 1 + 1) := by
          rw [List.drop_eq_getElem_cons hlt3, hgel3]
        have hdec2 := (List.takeWhile_append_dropWhile Char.isDigit
          (s1.chars.drop (s1.start + 1 +
            ((s1.chars.drop (s1.start + 1)).takeWhile Char.isDigit).length + 1))).symm
        rw [dropWhile_eq_drop_len, List.drop_drop] at hdec2
        have hd2cons : (s1.chars.drop (s1.start + 1 +
              ((s1.chars.drop (s1.start + 1)).takeWhile Char.isDigit).length + 1)).takeWhile
                Char.isDigit =
            e :: (s1.chars.drop (s1.start + 1 +
              ((s1.chars.drop (s1.start + 1)).takeWhile Char.isDigit).length + 1 + 1)).takeWhile
                Char.isDigit := by
          rw [hdrop3, List.takeWhile_cons, if_pos hnext0]
        have hd2ne : (s1.chars.drop (s1.start + 1 +
              ((s1.chars.drop (s1.start + 1)).takeWhile Char.isDigit).length + 1)).takeWhile
                Char.isDigit ≠ [] := by
          rw [hd2cons]
          exact List.cons_ne_nil _ _
        have hD2 : ∀ x ∈ (s1.chars.drop (s1.start + 1 +
              ((s1.chars.drop (s1.start + 1)).takeWhile Char.isDigit).length + 1)).takeWhile
                Char.isDigit, x.isDigit = true :=
          fun x hx => List.mem_takeWhile_imp hx
        rw [digitLoop_eq]
        dsimp only
        have hshape : s1.chars.drop s1.start =
            ((c :: (s1.chars.drop (s1.start + 1)).takeWhile Char.isDigit) ++
              '.' :: (s1.chars.drop (s1.start + 1 +
                ((s1.chars.drop (s1.start + 1)).takeWhile Char.isDigit).length + 1)).takeWhile
                  Char.isDigit) ++
              s1.chars.drop (s1.start + 1 +
                ((s1.chars.drop (s1.start + 1)).takeWhile Char.isDigit).length + 1 +
                ((s1.chars.drop (s1.start + 1 +
                  ((s1.chars.drop (s1.start + 1)).takeWhile Char.isDigit).length + 1)).takeWhile
                    Char.isDigit).length) := by
          rw [hdropc]
          conv_lhs => rw [hdec1, hdot, hdec2]
          simp [List.cons_append, List.append_assoc]
        have hK : s1.start + 1 + ((s1.chars.drop (s1.start + 1)).takeWhile Char.isDigit).length +
              1 + ((s1.chars.drop (s1.start + 1 +
                ((s1.chars.drop (s1.start + 1)).takeWhile Char.isDigit).length + 1)).takeWhile
                  Char.isDigit).length - s1.start =
            ((c :: (s1.chars.drop (s1.start + 1)).takeWhile Char.isDigit) ++
              '.' :: (s1.chars.drop (s1.start + 1 +
                ((s1.chars.drop (s1.start + 1)).takeWhile Char.isDigit).length + 1)).takeWhile
                  Char.isDigit).length := by
          simp [List.length_append, List.length_cons]
          omega
        have hparse := parseNumber_digits_frac
          (c :: (s1.chars.drop (s1.start + 1)).takeWhile Char.isDigit)
          ((s1.chars.drop (s1.start + 1 +
            ((s1.chars.drop (s1.start + 1)).takeWhile Char.isDigit).length + 1)).takeWhile
              Char.isDigit)
          (List.cons_ne_nil _ _) hd2ne
          (by
            intro x hx
            rcases List.mem_cons.mp hx with h1 | h1
            · exact h1 ▸ hc
            · exact hD1 x h1)
          hD2
        rw [List.cons_append] at hparse
        refine ⟨_, rfl, rfl, ?_⟩
        dsimp only [substr]
        rw [hK, hshape, List.take_left]
        rw [List.cons_append]
        rw [hparse]
        exact ⟨_, rfl, by rw [Option.getD_some]⟩
  · refine ⟨_, rfl, rfl, ?_⟩
    dsimp only [substr]
    have hK : s1.start + 1 + ((s1.chars.drop (s1.start + 1)).takeWhile Char.isDigit).length -
        s1.start = ((s1.chars.drop (s1.start + 1)).takeWhile Char.isDigit).length + 1 := by
      omega
    have hlex : (s1.chars.drop s1.start).take
          (((s1.chars.drop (s1.start + 1)).takeWhile Char.isDigit).length + 1) =
        c :: (s1.chars.drop (s1.start + 1)).takeWhile Char.isDigit := by
      rw [hdropc, List.take_succ_cons]
      nth_rewrite 2 [hdec1]
      rw [List.take_left]
    have hparse := parseNumber_all_digits
      (c :: (s1.chars.drop (s1.start + 1)).takeWhile Char.isDigit)
      (List.cons_ne_nil _ _)
      (by
        intro x hx
        rcases List.mem_cons.mp hx with h1 | h1
        · exact h1 ▸ hc
        · exact hD1 x h1)
    rw [hK, hlex, hparse]
    exact ⟨_, rfl, by rw [Option.getD_some]⟩

/-- A token the scanning loop may emit: never the EOF kind, and a `Number`
token always carries the successfully parsed value of its own lexeme (the
`unwrap_or_default` fallback of `Scanner::number` is never taken). -/
def goodTok (t : Token) : Prop :=
  t.kind ≠ TokenType.EOF ∧
    (t.kind = TokenType.Number →
      ∃ v, parseNumber t.lexeme.data = some v ∧ t.literal = some (Literal.num v))

theorem goodTok_notNum {k : TokenType} {lex : String} {lit : Option Literal} {line : Nat}
    (h1 : k ≠ TokenType.EOF) (h2 : k ≠ TokenType.Number) : goodTok ⟨k, lex, lit, line⟩ :=
  ⟨h1, fun hk => absurd hk h2⟩

theorem string_tokens (s1 : Scanner) :
    ∃ new, (Scanner.string s1).tokens = s1.tokens ++ new ∧
      ∀ t ∈ new, t.kind = TokenType.String := by
  unfold Scanner.string
  rw [stringLoop_eq]
  dsimp only
  split_ifs with h
  · exact ⟨[], by simp, by simp⟩
  · refine ⟨_, rfl, ?_⟩
    intro t ht
    rw [List.mem_singleton] at ht
    subst ht
    rfl

theorem identifier_tokens (s1 : Scanner) :
    ∃ new, (Scanner.identifier s1).tokens = s1.tokens ++ new ∧
      ∀ t ∈ new, t.kind ≠ TokenType.EOF ∧ t.kind ≠ TokenType.Number := by
  unfold Scanner.identifier
  rw [identLoop_eq]
  dsimp only
  split
  · rename_i k hk
    refine ⟨_, rfl, ?_⟩
    intro t ht
    rw [List.mem_singleton] at ht
    subst ht
    have hmem := lookup_mem_snd hk
    have hall : ∀ b ∈ KEYWORDS.map Prod.snd,
        b ≠ TokenType.EOF ∧ b ≠ TokenType.Number := by decide
    exact hall k hmem
  · refine ⟨_, rfl, ?_⟩
    intro t ht
    rw [List.mem_singleton] at ht
    subst ht
    exact ⟨(by decide : TokenType.Identifier ≠ TokenType.EOF),
      (by decide : TokenType.Identifier ≠ TokenType.Number)⟩

set_option maxHeartbeats 1000000 in
theorem scanToken_good {s s' : Scanner} (hstart : s.start = s.current)
    (h : s.scanToken = some s') (hprev : ∀ t ∈ s.tokens, goodTok t) :
    ∀ t ∈ s'.tokens, goodTok t := by
  cases ha : s.advance with
  | none => rw [scanToken_eq_none ha] at h; exact Option.noConfusion h
  | some p =>
    obtain ⟨c, s1⟩ := p
    rw [scanToken_eq_dispatch ha] at h
    obtain ⟨hg, hs1⟩ := advance_some ha
    have htok : s1.tokens = s.tokens := by rw [hs1]
    have hch : s1.chars = s.chars := by rw [hs1]
    have hst : s1.start = s.start := by rw [hs1]
    have hcur : s1.current = s1.start + 1 := by rw [hs1]; dsimp only; rw [hstart]
    have hgs1 : s1.chars[s1.start]? = some c := by rw [hch, hst, hstart]; exact hg
    clear hs1 ha hg
    unfold Scanner.scanDispatch at h
    split at h <;>
      first
      | (injection h with h
         subst h
         rw [addToken_tokens]
         try dsimp only
         rw [htok]
         intro t ht
         rcases List.mem_append.mp ht with h1 | h1
         · exact hprev t h1
         · rw [List.mem_singleton] at h1
           subst h1
           exact goodTok_notNum (by decide) (by decide))
      | (injection h with h
         subst h
         rcases nextIfEq_spec s1 '=' with ⟨hb, hsnd, hc2⟩ | ⟨hb, hsnd, hc2⟩ <;>
           rw [hb, hsnd] <;>
           (rw [addToken_tokens]
            try dsimp only
            rw [htok]
            intro t ht
            rcases List.mem_append.mp ht with h1 | h1
            · exact hprev t h1
            · rw [List.mem_singleton] at h1
              subst h1
              exact goodTok_notNum (by decide) (by decide)))
      | (injection h with h
         subst h
         try dsimp only
         rw [htok]
         exact hprev)
      | (injection h with h
         subst h
         obtain ⟨new, hnew, hkinds⟩ := string_tokens s1
         rw [hnew, htok]
         intro t ht
         rcases List.mem_append.mp ht with h1 | h1
         · exact hprev t h1
         · refine ⟨?_, ?_⟩
           · rw [hkinds t h1]
             decide
           · intro hnum
             exact absurd ((hkinds t h1).symm.trans hnum) (by decide))
      | (dsimp only at h
         rcases nextIfEq_spec s1 '/' with ⟨hb, hsnd, hc2⟩ | ⟨hb, hsnd, hc2⟩
         · rw [hb, hsnd, if_pos rfl, commentLoop_eq] at h
           split at h
           · injection h with h
             subst h
             try dsimp only
             rw [htok]
             exact hprev
           · exact Option.noConfusion h
         · rw [hb, hsnd, if_neg (by simp)] at h
           injection h with h
           subst h
           rw [addToken_tokens]
           try dsimp only
           rw [htok]
           intro t ht
           rcases List.mem_append.mp ht with h1 | h1
           · exact hprev t h1
           · rw [List.mem_singleton] at h1
             subst h1
             exact goodTok_notNum (by decide) (by decide))
      | (split_ifs at h with hdig halpha
         · injection h with h
           subst h
           obtain ⟨t0, hnew, hkind, v, hv1, hv2⟩ := number_tokens s1 c hgs1 hdig hcur
           rw [hnew, htok]
           intro t ht
           rcases List.mem_append.mp ht with h1 | h1
           · exact hprev t h1
           · rw [List.mem_singleton] at h1
             subst h1
             refine ⟨?_, fun _ => ⟨v, hv1, hv2⟩⟩
             rw [hkind]
             decide
         · injection h with h
           subst h
           obtain ⟨new, hnew, hkinds⟩ := identifier_tokens s1
           rw [hnew, htok]
           intro t ht
           rcases List.mem_append.mp ht with h1 | h1
           · exact hprev t h1
           · exact goodTok_notNum (hkinds t h1).1 (hkinds t h1).2
         · injection h with h
           subst h
           try dsimp only
           rw [htok]
           exact hprev)

theorem scanLoop_good : ∀ (n : Nat) (s s' : Scanner), s.chars.length - s.current ≤ n →
    s.scanLoop = some s' → (∀ t ∈ s.tokens, goodTok t) → ∀ t ∈ s'.tokens, goodTok t := by
  intro n
  induction n with
  | zero =>
    intro s s' hn h hprev
    rw [scanLoop_done (by omega)] at h
    cases h
    exact hprev
  | succ n ih =>
    intro s s' hn h hprev
    by_cases hlt : s.current < s.chars.length
    · rw [scanLoop_step hlt] at h
      cases hstep : Scanner.scanToken { s with start := s.current } with
      | none => rw [hstep] at h; exact Option.noConfusion h
      | some s1 =>
        rw [hstep, Option.some_bind] at h
        obtain ⟨hc, hcur⟩ := scanToken_mono hstep
        dsimp only at hc hcur
        have hgood1 := scanToken_good rfl hstep hprev
        exact ih s1 s' (by rw [hc]; omega) h hgood1
    · rw [scanLoop_done hlt] at h
      cases h
      exact hprev

theorem scanLoop_good_all {s s' : Scanner} (h : s.scanLoop = some s')
    (hprev : ∀ t ∈ s.tokens, goodTok t) : ∀ t ∈ s'.tokens, goodTok t :=
  scanLoop_good (s.chars.length - s.current) s s' (le_refl _) h hprev

theorem scanTokens_some {s s' : Scanner} (h : s.scanTokens = some s') :
    ∃ s0, s.scanLoop = some s0 ∧
      s' = { s0 with tokens := s0.tokens ++ [⟨TokenType.EOF, "", none, s0.line⟩] } := by
  unfold Scanner.scanTokens at h
  cases hl : s.scanLoop with
  | none => rw [hl] at h; exact Option.noConfusion h
  | some s0 =>
    rw [hl] at h
    injection h with h
    exact ⟨s0, rfl, h.symm⟩

/-- C4: a matched numeral that fails numeric parsing is never silently
decoded as zero: for every input, every `Number` token in the returned
sequence carries the successfully parsed value of its own lexeme, so the
`unwrap_or_default` fallback value `0.0` of `Scanner::number` is never what
a failed parse produced — the parse of a matched numeral cannot fail. -/
theorem number_token_value_never_defaulted :
    ∀ (source : String) (toks : List Token), scan source = some toks →
      ∀ t ∈ toks, t.kind = TokenType.Number →
        ∃ v, parseNumber t.lexeme.data = some v ∧ t.literal = some (Literal.num v) := by
  intro source toks hscan t ht hkind
  unfold scan at hscan
  cases hst : (Scanner.new source).scanTokens with
  | none => rw [hst] at hscan; exact Option.noConfusion hscan
  | some s' =>
    rw [hst] at hscan
    injection hscan with hscan
    subst hscan
    obtain ⟨s0, hloop, hs'⟩ := scanTokens_some hst
    subst hs'
    have hgood := scanLoop_good_all hloop (by intro u hu; exact absurd hu (List.not_mem_nil u))
    rcases List.mem_append.mp ht with h1 | h1
    · exact (hgood t h1).2 hkind
    · rw [List.mem_singleton] at h1
      subst h1
      exact TokenType.noConfusion hkind

/-- Witness for C4 at the concrete input `"12"`: the scan returns a Number
token whose value is the parsed value of its lexeme. -/
theorem number_token_value_never_defaulted_witness :
    ∃ v, parseNumber (Token.lexeme ⟨TokenType.Number, "12", some (Literal.num 12), 1⟩).data =
        some v ∧
      Token.literal ⟨TokenType.Number, "12", some (Literal.num 12), 1⟩ =
        some (Literal.num v) := by
  have hd : ("12").data = ['1', '2'] := rfl
  have hscan : scan "12" = some [⟨TokenType.Number, "12", some (Literal.num 12), 1⟩,
      ⟨TokenType.EOF, "", none, 1⟩] := by
    simp [scan, Scanner.scanTokens, Scanner.new, hd, scanLoop_step, scanLoop_done,
      Scanner.scanToken, Scanner.advance, Scanner.scanDispatch, Scanner.addToken,
      Scanner.addLiteral, Scanner.nextIfEq, Scanner.peek, Scanner.peekNext, Scanner.isAtEnd,
      Scanner.string, Scanner.number, Scanner.identifier, stringLoop_eq, digitLoop_eq,
      identLoop_eq, commentLoop_eq, substr, parseNumber, digitsVal, KEYWORDS, isAlphabetic]
  exact number_token_value_never_defaulted "12" _ hscan
    ⟨TokenType.Number, "12", some (Literal.num 12), 1⟩ (by simp) rfl

/-- C8 (amended): for every input on which the scan terminates without
panicking, the resulting state holds exactly one EOF token, it is the last
element, and it carries an empty lexeme, no literal, and the final value of
the line counter. -/
theorem scan_ends_with_unique_eof (source : String) (s' : Scanner)
    (h : (Scanner.new source).scanTokens = some s') :
    ∃ ts, s'.tokens = ts ++ [⟨TokenType.EOF, "", none, s'.line⟩] ∧
      ∀ u ∈ ts, u.kind ≠ TokenType.EOF := by
  obtain ⟨s0, hloop, hs'⟩ := scanTokens_some h
  subst hs'
  have hgood := scanLoop_good_all hloop (by intro u hu; exact absurd hu (List.not_mem_nil u))
  exact ⟨s0.tokens, rfl, fun u hu => (hgood u hu).1⟩

/-- C8 counterexample: as stated, the claim is false — for the input `"//"`
(a line comment that reaches end of input) the scan panics and returns no
token sequence at all, so no sequence with a trailing EOF token exists. -/
theorem scan_ends_with_unique_eof_counterexample : ¬ ∃ toks, scan "//" = some toks := by
  have hd : ("//").data = ['/', '/'] := rfl
  have hnone : scan "//" = none := by
    simp [scan, Scanner.scanTokens, Scanner.new, hd, scanLoop_step, scanLoop_done,
      Scanner.scanToken, Scanner.advance, Scanner.scanDispatch, Scanner.addToken,
      Scanner.addLiteral, Scanner.nextIfEq, Scanner.peek, Scanner.peekNext, Scanner.isAtEnd,
      Scanner.string, Scanner.number, Scanner.identifier, stringLoop_eq, digitLoop_eq,
      identLoop_eq, commentLoop_eq, substr, parseNumber, digitsVal, KEYWORDS, isAlphabetic]
  rintro ⟨toks, htoks⟩
  rw [hnone] at htoks
  exact Option.noConfusion htoks

/-- Witness for the amended C8 at the concrete input `"+"`. -/
theorem scan_ends_with_unique_eof_witness :
    ∃ ts, Scanner.tokens ⟨['+'], [⟨TokenType.Plus, "+", none, 1⟩, ⟨TokenType.EOF, "", none, 1⟩],
        [], 0, 1, 1⟩ =
      ts ++ [⟨TokenType.EOF, "", none, 1⟩] ∧ ∀ u ∈ ts, u.kind ≠ TokenType.EOF := by
  have hd : ("+").data = ['+'] := rfl
  have hscan : (Scanner.new "+").scanTokens =
      some ⟨['+'], [⟨TokenType.Plus, "+", none, 1⟩, ⟨TokenType.EOF, "", none, 1⟩], [], 0, 1, 1⟩ := by
    simp [Scanner.scanTokens, Scanner.new, hd, scanLoop_step, scanLoop_done,
      Scanner.scanToken, Scanner.advance, Scanner.scanDispatch, Scanner.addToken,
      Scanner.addLiteral, Scanner.nextIfEq, Scanner.peek, Scanner.peekNext, Scanner.isAtEnd,
      Scanner.string, Scanner.number, Scanner.identifier, stringLoop_eq, digitLoop_eq,
      identLoop_eq, commentLoop_eq, substr, parseNumber, digitsVal, KEYWORDS, isAlphabetic]
  exact scan_ends_with_unique_eof "+" _ hscan

theorem string_unterminated (body : List Char) (hq : '"' ∉ body) :
    (⟨'"' :: body, [], [], 0, 1, 1⟩ : Scanner).string =
      ⟨'"' :: body, [], [(1 + body.count '\n', "Unterminated string.")], 0,
        1 + body.length, 1 + body.count '\n'⟩ := by
  have htw : body.takeWhile (fun x => x != '"') = body :=
    List.takeWhile_eq_self_iff.mpr fun a ha => by
      simp only [bne_iff_ne, ne_eq]
      exact fun hc => hq (hc ▸ ha)
  unfold Scanner.string
  rw [stringLoop_eq]
  dsimp only
  rw [show List.drop 1 ('"' :: body) = body from rfl, htw]
  split_ifs with hend
  · rfl
  · exfalso
    apply hend
    simp [Scanner.isAtEnd, List.length_cons]
    omega

theorem scanLoop_quote_start (body : List Char) :
    (Scanner.new (String.mk ('"' :: body))).scanLoop =
      ((⟨'"' :: body, [], [], 0, 1, 1⟩ : Scanner).string).scanLoop := by
  have hstate : Scanner.new (String.mk ('"' :: body)) = ⟨'"' :: body, [], [], 0, 0, 1⟩ := rfl
  rw [hstate, scanLoop_step (Nat.succ_pos body.length)]
  have ha : (⟨'"' :: body, [], [], 0, 0, 1⟩ : Scanner).advance =
      some ('"', ⟨'"' :: body, [], [], 0, 1, 1⟩) := by
    unfold Scanner.advance
    rw [List.getElem?_cons_zero]
  rw [show ({(⟨'"' :: body, [], [], 0, 0, 1⟩ : Scanner) with
      start := (⟨'"' :: body, [], [], 0, 0, 1⟩ : Scanner).current} : Scanner) =
      ⟨'"' :: body, [], [], 0, 0, 1⟩ from rfl]
  rw [scanToken_eq_dispatch ha]
  rw [show Scanner.scanDispatch '"' (⟨'"' :: body, [], [], 0, 1, 1⟩ : Scanner) =
      some ((⟨'"' :: body, [], [], 0, 1, 1⟩ : Scanner).string) from rfl]
  rw [Option.some_bind]

/-- C5: for every input consisting of an opening `"` whose closing quote is
never reached, the scanner reports exactly one "Unterminated string."
diagnostic at the current (final) line, emits no String token — indeed no
token at all for the lexeme — and the returned sequence still ends with the
trailing EOF token. -/
theorem unterminated_string_one_diagnostic (body : List Char) (hq : '"' ∉ body) :
    scan (String.mk ('"' :: body)) =
      some [⟨TokenType.EOF, "", none, 1 + body.count '\n'⟩] ∧
    scanErrors (String.mk ('"' :: body)) =
      some [(1 + body.count '\n', "Unterminated string.")] := by
  have hst : (Scanner.new (String.mk ('"' :: body))).scanTokens =
      some ⟨'"' :: body, [⟨TokenType.EOF, "", none, 1 + body.count '\n'⟩],
        [(1 + body.count '\n', "Unterminated string.")], 0,
        1 + body.length, 1 + body.count '\n'⟩ := by
    have hloop : (Scanner.new (String.mk ('"' :: body))).scanLoop =
        some ⟨'"' :: body, [], [(1 + body.count '\n', "Unterminated string.")], 0,
          1 + body.length, 1 + body.count '\n'⟩ := by
      rw [scanLoop_quote_start, string_unterminated body hq]
      exact scanLoop_done (by omega : ¬(1 + body.length < body.length + 1))
    unfold Scanner.scanTokens
    rw [hloop]
    rfl
  constructor
  · unfold scan
    rw [hst]
    rfl
  · unfold scanErrors
    rw [hst]
    rfl

/-- Witness for C5 at the concrete input `"abc` (an unterminated string). -/
theorem unterminated_string_one_diagnostic_witness :
    scan (String.mk ['"', 'a', 'b', 'c']) =
      some [⟨TokenType.EOF, "", none, 1 + (['a', 'b', 'c'] : List Char).count '\n'⟩] ∧
    scanErrors (String.mk ['"', 'a', 'b', 'c']) =
      some [(1 + (['a', 'b', 'c'] : List Char).count '\n', "Unterminated string.")] :=
  unterminated_string_one_diagnostic ['a', 'b', 'c'] (by decide)

theorem string_terminated (body : List Char) (hq : '"' ∉ body) :
    (⟨'"' :: (body ++ ['"']), [], [], 0, 1, 1⟩ : Scanner).string =
      ⟨'"' :: (body ++ ['"']),
        [⟨TokenType.String, String.mk ('"' :: (body ++ ['"'])),
          some (Literal.str (String.mk body)), 1 + body.count '\n'⟩],
        [], 0, 1 + body.length + 1, 1 + body.count '\n'⟩ := by
  obtain ⟨htw, _⟩ := takeWhile_append_cons (fun x => x != '"') body '"' []
    (fun x hx => by
      simp only [bne_iff_ne, ne_eq]
      exact fun hc => hq (hc ▸ hx)) (by decide)
  unfold Scanner.string
  rw [stringLoop_eq]
  dsimp only
  rw [show List.drop 1 ('"' :: (body ++ ['"'])) = body ++ ['"'] from rfl, htw]
  split_ifs with hend
  · exfalso
    simp [Scanner.isAtEnd, List.length_cons, List.length_append] at hend
    omega
  · unfold Scanner.addLiteral substr
    dsimp only
    have h1 : (('"' :: (body ++ ['"'])).drop 0).take (1 + body.length + 1 - 0) =
        '"' :: (body ++ ['"']) := by
      rw [List.drop_zero]
      rw [show 1 + body.length + 1 - 0 = ('"' :: (body ++ ['"'])).length from by
        simp [List.length_cons, List.length_append]
        omega]
      rw [List.take_length]
    have h2 : (('"' :: (body ++ ['"'])).drop (0 + 1)).take (1 + body.length + 1 - 1 - (0 + 1)) =
        body := by
      rw [show ('"' :: (body ++ ['"'])).drop (0 + 1) = body ++ ['"'] from rfl]
      rw [show 1 + body.length + 1 - 1 - (0 + 1) = body.length from by omega]
      exact List.take_left body ['"']
    rw [h1, h2]
    rfl

/-- C6: for every terminated string literal, the scanner consumes the
closing quote and emits exactly one String token whose literal value is
the exact character content between the two quotes (no escape processing),
whose lexeme is the whole quoted text, and whose line is the starting line
plus one per newline inside the string; no diagnostic is reported. -/
theorem terminated_string_token (body : List Char) (hq : '"' ∉ body) :
    scan (String.mk ('"' :: (body ++ ['"']))) =
      some [⟨TokenType.String, String.mk ('"' :: (body ++ ['"'])),
              some (Literal.str (String.mk body)), 1 + body.count '\n'⟩,
            ⟨TokenType.EOF, "", none, 1 + body.count '\n'⟩] ∧
    scanErrors (String.mk ('"' :: (body ++ ['"']))) = some [] := by
  have hloop : (Scanner.new (String.mk ('"' :: (body ++ ['"'])))).scanLoop =
      some ⟨'"' :: (body ++ ['"']),
        [⟨TokenType.String, String.mk ('"' :: (body ++ ['"'])),
          some (Literal.str (String.mk body)), 1 + body.count '\n'⟩],
        [], 0, 1 + body.length + 1, 1 + body.count '\n'⟩ := by
    have h0 := scanLoop_quote_start (body ++ ['"'])
    rw [string_terminated body hq] at h0
    exact h0.trans (scanLoop_done (by
      simp only [Scanner.current, Scanner.chars, List.length_cons, List.length_append,
        List.length_singleton, List.length_nil]
      omega))
  have hst : (Scanner.new (String.mk ('"' :: (body ++ ['"'])))).scanTokens =
      some ⟨'"' :: (body ++ ['"']),
        [⟨TokenType.String, String.mk ('"' :: (body ++ ['"'])),
          some (Literal.str (String.mk body)), 1 + body.count '\n'⟩,
          ⟨TokenType.EOF, "", none, 1 + body.count '\n'⟩],
        [], 0, 1 + body.length + 1, 1 + body.count '\n'⟩ := by
    unfold Scanner.scanTokens
    rw [hloop]
    rfl
  constructor
  · unfold scan
    rw [hst]
    rfl
  · unfold scanErrors
    rw [hst]
    rfl

/-- Witness for C6 at the concrete input `"a\nb"` (a two-line string). -/
theorem terminated_string_token_witness :
    scan (String.mk ('"' :: (['a', '\n', 'b'] ++ ['"']))) =
      some [⟨TokenType.String, String.mk ('"' :: (['a', '\n', 'b'] ++ ['"'])),
              some (Literal.str (String.mk ['a', '\n', 'b'])),
              1 + (['a', '\n', 'b'] : List Char).count '\n'⟩,
            ⟨TokenType.EOF, "", none, 1 + (['a', '\n', 'b'] : List Char).count '\n'⟩] ∧
    scanErrors (String.mk ('"' :: (['a', '\n', 'b'] ++ ['"']))) = some [] :=
  terminated_string_token ['a', '\n', 'b'] (by decide)

/-- C1: in the code as written the single-character punctuation dispatch is
not the conventional bijection: `{` is routed to `LeftParen` (the same kind
as `(`), `,` to `Dot` and `.` to `Comma` (swapped), and `*` to `Plus` (the
same kind as `+`).  This theorem evaluates the scan at those inputs
(`'\x7b'` is the left-brace character). -/
theorem punctuation_dispatch_actual :
    scan "\x7b" = some [⟨TokenType.LeftParen, "\x7b", none, 1⟩, ⟨TokenType.EOF, "", none, 1⟩] ∧
    scan "(" = some [⟨TokenType.LeftParen, "(", none, 1⟩, ⟨TokenType.EOF, "", none, 1⟩] ∧
    scan "," = some [⟨TokenType.Dot, ",", none, 1⟩, ⟨TokenType.EOF, "", none, 1⟩] ∧
    scan "." = some [⟨TokenType.Comma, ".", none, 1⟩, ⟨TokenType.EOF, "", none, 1⟩] ∧
    scan "*" = some [⟨TokenType.Plus, "*", none, 1⟩, ⟨TokenType.EOF, "", none, 1⟩] ∧
    scan "+" = some [⟨TokenType.Plus, "+", none, 1⟩, ⟨TokenType.EOF, "", none, 1⟩] := by
  have hd1 : ("\x7b").data = ['\x7b'] := rfl
  have hd2 : ("(").data = ['('] := rfl
  have hd3 : (",").data = [','] := rfl
  have hd4 : (".").data = ['.'] := rfl
  have hd5 : ("*").data = ['*'] := rfl
  have hd6 : ("+").data = ['+'] := rfl
  refine ⟨?_, ?_, ?_, ?_, ?_, ?_⟩ <;>
    simp [scan, Scanner.scanTokens, Scanner.new, hd1, hd2, hd3, hd4, hd5, hd6,
      scanLoop_step, scanLoop_done, Scanner.scanToken, Scanner.advance, Scanner.scanDispatch,
      Scanner.addToken, Scanner.addLiteral, Scanner.nextIfEq, Scanner.peek, Scanner.peekNext,
      Scanner.isAtEnd, Scanner.string, Scanner.number, Scanner.identifier, stringLoop_eq,
      digitLoop_eq, identLoop_eq, commentLoop_eq, substr, parseNumber, digitsVal, KEYWORDS,
      isAlphabetic]

/-- C2: the claim says every scan terminates normally, in particular when
end of input is reached inside a line comment; in the code the comment loop
keeps calling `advance` until a newline and indexes out of bounds at end of
input, so the scan of `"//"` or `"//ab"` panics and returns nothing, while
a newline-terminated comment (`"//a\n"`) still scans to completion. -/
theorem scan_comment_at_eof_panics :
    scan "//" = none ∧ scan "//ab" = none ∧
    scan "//a\n" = some [⟨TokenType.EOF, "", none, 2⟩] := by
  have hd1 : ("//").data = ['/', '/'] := rfl
  have hd2 : ("//ab").data = ['/', '/', 'a', 'b'] := rfl
  have hd3 : ("//a\n").data = ['/', '/', 'a', '\n'] := rfl
  refine ⟨?_, ?_, ?_⟩ <;>
    simp [scan, Scanner.scanTokens, Scanner.new, hd1, hd2, hd3,
      scanLoop_step, scanLoop_done, Scanner.scanToken, Scanner.advance, Scanner.scanDispatch,
      Scanner.addToken, Scanner.addLiteral, Scanner.nextIfEq, Scanner.peek, Scanner.peekNext,
      Scanner.isAtEnd, Scanner.string, Scanner.number, Scanner.identifier, stringLoop_eq,
      digitLoop_eq, identLoop_eq, commentLoop_eq, substr, parseNumber, digitsVal, KEYWORDS,
      isAlphabetic]

/-- C3: the fractional-part lookahead as coded: `"3.14"` scans as one
Number token with value 3.14, but when the would-be fractional digit is the
last character of the input (`"3.5"`), the `peek_next` bound check
`idx + 1 >= len` returns `None`, the fraction is not consumed, and the scan
yields Number 3, a Comma-kind token for `"."`, and Number 5; `"3."`
likewise yields Number 3 followed by a Comma-kind token, not a Dot-kind
one. -/
theorem number_fraction_lookahead_actual :
    scan "3.14" = some [⟨TokenType.Number, "3.14", some (Literal.num 3.14), 1⟩,
      ⟨TokenType.EOF, "", none, 1⟩] ∧
    scan "3.5" = some [⟨TokenType.Number, "3", some (Literal.num 3), 1⟩,
      ⟨TokenType.Comma, ".", none, 1⟩,
      ⟨TokenType.Number, "5", some (Literal.num 5), 1⟩,
      ⟨TokenType.EOF, "", none, 1⟩] ∧
    scan "3." = some [⟨TokenType.Number, "3", some (Literal.num 3), 1⟩,
      ⟨TokenType.Comma, ".", none, 1⟩, ⟨TokenType.EOF, "", none, 1⟩] := by
  have hd1 : ("3.14").data = ['3', '.', '1', '4'] := rfl
  have hd2 : ("3.5").data = ['3', '.', '5'] := rfl
  have hd3 : ("3.").data = ['3', '.'] := rfl
  refine ⟨?_, ?_, ?_⟩ <;>
    first
    | (simp [scan, Scanner.scanTokens, Scanner.new, hd1, hd2, hd3,
        scanLoop_step, scanLoop_done, Scanner.scanToken, Scanner.advance, Scanner.scanDispatch,
        Scanner.addToken, Scanner.addLiteral, Scanner.nextIfEq, Scanner.peek, Scanner.peekNext,
        Scanner.isAtEnd, Scanner.string, Scanner.number, Scanner.identifier, stringLoop_eq,
        digitLoop_eq, identLoop_eq, commentLoop_eq, substr, parseNumber, digitsVal, KEYWORDS,
        isAlphabetic]
       norm_num)
    | simp [scan, Scanner.scanTokens, Scanner.new, hd1, hd2, hd3,
        scanLoop_step, scanLoop_done, Scanner.scanToken, Scanner.advance, Scanner.scanDispatch,
        Scanner.addToken, Scanner.addLiteral, Scanner.nextIfEq, Scanner.peek, Scanner.peekNext,
        Scanner.isAtEnd, Scanner.string, Scanner.number, Scanner.identifier, stringLoop_eq,
        digitLoop_eq, identLoop_eq, commentLoop_eq, substr, parseNumber, digitsVal, KEYWORDS,
        isAlphabetic]

/-- C7: identifier-versus-keyword resolution is an exact, case-sensitive
match with no prefix matching: `"for"` scans as the reserved `For` keyword
token with no literal payload, while `"forx"` scans as one Identifier token
whose literal text is `"forx"`. -/
theorem keyword_exact_match :
    scan "for" = some [⟨TokenType.For, "for", none, 1⟩, ⟨TokenType.EOF, "", none, 1⟩] ∧
    scan "forx" = some [⟨TokenType.Identifier, "forx", some (Literal.ident "forx"), 1⟩,
      ⟨TokenType.EOF, "", none, 1⟩] := by
  have hd1 : ("for").data = ['f', 'o', 'r'] := rfl
  have hd2 : ("forx").data = ['f', 'o', 'r', 'x'] := rfl
  have hk1 : List.lookup "for" KEYWORDS = some TokenType.For := rfl
  have hk2 : List.lookup "forx" KEYWORDS = none := rfl
  refine ⟨?_, ?_⟩ <;>
    simp [scan, Scanner.scanTokens, Scanner.new, hd1, hd2, hk1, hk2,
      scanLoop_step, scanLoop_done, Scanner.scanToken, Scanner.advance, Scanner.scanDispatch,
      Scanner.addToken, Scanner.addLiteral, Scanner.nextIfEq, Scanner.peek, Scanner.peekNext,
      Scanner.isAtEnd, Scanner.string, Scanner.number, Scanner.identifier, stringLoop_eq,
      digitLoop_eq, identLoop_eq, commentLoop_eq, substr, parseNumber, digitsVal,
      isAlphabetic]

/-- C9: two-character operator matching is greedy-maximal: `"!="` scans as
exactly one BangEqual token before EOF, never as Bang followed by Equal;
`"!"` alone scans as Bang; and `next_if_eq` consumes the second character
exactly when it is the expected one. -/
theorem bang_equal_greedy :
    scan "!=" = some [⟨TokenType.BangEqual, "!=", none, 1⟩, ⟨TokenType.EOF, "", none, 1⟩] ∧
    scan "!" = some [⟨TokenType.Bang, "!", none, 1⟩, ⟨TokenType.EOF, "", none, 1⟩] ∧
    ∀ (s : Scanner) (c : Char), (s.nextIfEq c).1 = true ↔ s.chars[s.current]? = some c := by
  have hd1 : ("!=").data = ['!', '='] := rfl
  have hd2 : ("!").data = ['!'] := rfl
  refine ⟨?_, ?_, ?_⟩
  · simp [scan, Scanner.scanTokens, Scanner.new, hd1, hd2,
      scanLoop_step, scanLoop_done, Scanner.scanToken, Scanner.advance, Scanner.scanDispatch,
      Scanner.addToken, Scanner.addLiteral, Scanner.nextIfEq, Scanner.peek, Scanner.peekNext,
      Scanner.isAtEnd, Scanner.string, Scanner.number, Scanner.identifier, stringLoop_eq,
      digitLoop_eq, identLoop_eq, commentLoop_eq, substr, parseNumber, digitsVal, KEYWORDS,
      isAlphabetic]
  · simp [scan, Scanner.scanTokens, Scanner.new, hd1, hd2,
      scanLoop_step, scanLoop_done, Scanner.scanToken, Scanner.advance, Scanner.scanDispatch,
      Scanner.addToken, Scanner.addLiteral, Scanner.nextIfEq, Scanner.peek, Scanner.peekNext,
      Scanner.isAtEnd, Scanner.string, Scanner.number, Scanner.identifier, stringLoop_eq,
      digitLoop_eq, identLoop_eq, commentLoop_eq, substr, parseNumber, digitsVal, KEYWORDS,
      isAlphabetic]
  · intro s c
    rcases nextIfEq_spec s c with ⟨hb, hsnd, hch⟩ | ⟨hb, hsnd, hch⟩ <;> simp [hb, hch]

/-- C10: the keyword table registers the spelling `"Fun"` (capital F) and
lookup is case-sensitive, so the input `"fun"` scans as an Identifier token
with literal text `"fun"` rather than the function-keyword token, and only
the exact input `"Fun"` yields the `Fun` keyword token. -/
theorem fun_keyword_requires_capital :
    scan "fun" = some [⟨TokenType.Identifier, "fun", some (Literal.ident "fun"), 1⟩,
      ⟨TokenType.EOF, "", none, 1⟩] ∧
    scan "Fun" = some [⟨TokenType.Fun, "Fun", none, 1⟩, ⟨TokenType.EOF, "", none, 1⟩] := by
  have hd1 : ("fun").data = ['f', 'u', 'n'] := rfl
  have hd2 : ("Fun").data = ['F', 'u', 'n'] := rfl
  have hk1 : List.lookup "fun" KEYWORDS = none := rfl
  have hk2 : List.lookup "Fun" KEYWORDS = some TokenType.Fun := rfl
  refine ⟨?_, ?_⟩ <;>
    simp [scan, Scanner.scanTokens, Scanner.new, hd1, hd2, hk1, hk2,
      scanLoop_step, scanLoop_done, Scanner.scanToken, Scanner.advance, Scanner.scanDispatch,
      Scanner.addToken, Scanner.addLiteral, Scanner.nextIfEq, Scanner.peek, Scanner.peekNext,
      Scanner.isAtEnd, Scanner.string, Scanner.number, Scanner.identifier, stringLoop_eq,
      digitLoop_eq, identLoop_eq, commentLoop_eq, substr, parseNumber, digitsVal,
      isAlphabetic]
